import Mathlib

/-!
# Verification of the Classic-games game-logic layer

A shallow embedding of the four game engines of the repository
(board game with minimax AI, snake, maze chase, word guess), together
with theorems settling the specification claims about them.

Conventions of the embedding:
* JS arrays of cells become `List`; in-range `a[i] = v` becomes `List.set`,
  and where an index may be out of range the JS growing-assignment
  semantics is modelled explicitly (`jsSet`).
* JS numbers become `Nat` / `Int`; the one fractional computation
  (the word-guess score) is modelled over `ℚ` with exact arithmetic.
* The ambient random source becomes an explicit parameter of each
  transition that consumes randomness.
* The recursive minimax search of the source terminates because every
  recursive call fills one empty cell; the embedding makes the
  termination measure explicit as a fuel parameter that is always
  instantiated with `squares.length`, an upper bound on the number of
  empty cells.
-/

set_option maxHeartbeats 2000000

namespace TicTacToe

/-- `type Player = "X" | "O"` -/
inductive Player where
  | X
  | O
deriving DecidableEq, Repr

/-- Result component of `checkWinner`: `Player | "Draw"` (with `null` as `Option.none`). -/
inductive GameResult where
  | win (p : Player)
  | draw
deriving DecidableEq, Repr

/-- `type Board = (Player | null)[]` -/
abbrev Board := List (Option Player)

/-- The 8 fixed lines (3 rows, 3 columns, 2 diagonals). -/
def WINNING_COMBINATIONS : List (Nat × Nat × Nat) :=
  [(0,1,2),(3,4,5),(6,7,8),(0,3,6),(1,4,7),(2,5,8),(0,4,8),(2,4,6)]

/-- `squares[i]` (reading a missing index yields `undefined`, i.e. a falsy
non-mark value, modelled as `none`). -/
def cellAt (squares : Board) (i : Nat) : Option Player := squares.getD i none

/-- `squares[a] && squares[a] === squares[b] && squares[a] === squares[c]`. -/
def lineWinner (squares : Board) (l : Nat × Nat × Nat) : Option Player :=
  match cellAt squares l.1 with
  | some p =>
    if cellAt squares l.2.1 = some p ∧ cellAt squares l.2.2 = some p then some p else none
  | none => none

/-- The `for (const line of WINNING_COMBINATIONS)` loop of `checkWinner`:
first line holding three equal non-empty marks. -/
def findWonLine : List (Nat × Nat × Nat) → Board → Option (Player × (Nat × Nat × Nat))
  | [], _ => none
  | l :: ls, squares =>
    match lineWinner squares l with
    | some p => some (p, l)
    | none => findWonLine ls squares

/-- `checkWinner(squares)`: winning mark and its line, else `Draw` when every
cell is filled (`squares.every(square => square !== null)`), else `null`. -/
def checkWinner (squares : Board) : Option GameResult × Option (Nat × Nat × Nat) :=
  match findWonLine WINNING_COMBINATIONS squares with
  | some (p, l) => (some (.win p), some l)
  | none => (if squares.all (fun c => c.isSome) then some .draw else none, none)

/-- First component of `checkWinner`. -/
def resultOf (squares : Board) : Option GameResult := (checkWinner squares).1

/-- `getEmptySquares`: `squares.reduce((acc, cell, idx) => cell === null ?
[...acc, idx] : acc, [])`. -/
def getEmptySquares (squares : Board) : List Nat :=
  squares.enum.foldl (fun acc p => if p.2 = none then acc ++ [p.1] else acc) []

/-- Stand-in for the JS `-Infinity` seed of the maximizing fold; every reachable
minimax score lies in `[-19, 19]`, so any value below that behaves identically. -/
def NEG_INFINITY : Int := -1000000

/-- Stand-in for the JS `Infinity` seed of the minimizing fold. -/
def POS_INFINITY : Int := 1000000

/-- Value computed by `minimax(squares, depth, isMaximizing)`.  The source
mutates one shared array (`squares[move] = mark; ...; squares[move] = null`);
since the trial mark is always undone (theorem for claim C9 below), the value
of each recursive call is the value of the board with the trial mark set,
which is what this pure version computes.  `fuel` bounds the recursion depth
and is always called with at least the number of empty cells. -/
def minimax : Nat → Board → Nat → Bool → Int
  | 0, squares, depth, _ =>
    match resultOf squares with
    | some (.win .O) => 10 - (depth : Int)
    | some (.win .X) => (depth : Int) - 10
    | some .draw => 0
    | none => 0
  | fuel' + 1, squares, depth, isMaximizing =>
    match resultOf squares with
    | some (.win .O) => 10 - (depth : Int)
    | some (.win .X) => (depth : Int) - 10
    | some .draw => 0
    | none =>
      let emptySquares := getEmptySquares squares
      if isMaximizing then
        emptySquares.foldl
          (fun bestScore mv =>
            max bestScore (minimax fuel' (squares.set mv (some .O)) (depth + 1) false))
          NEG_INFINITY
      else
        emptySquares.foldl
          (fun bestScore mv =>
            min bestScore (minimax fuel' (squares.set mv (some .X)) (depth + 1) true))
          POS_INFINITY

/-- `getAIMove` on `hard` difficulty: evaluate `minimax(·, 0, false)` for each
empty cell in increasing index order, keep the move whose score strictly
exceeds the best so far (`bestScore = -Infinity`, `bestMove = emptySquares[0]`). -/
def getAIMove (squares : Board) : Nat :=
  let emptySquares := getEmptySquares squares
  (emptySquares.foldl
    (fun acc mv =>
      let score := minimax squares.length (squares.set mv (some .O)) 0 false
      if acc.1 < score then (score, mv) else acc)
    (NEG_INFINITY, emptySquares.headD 0)).2

/-- The empty 3×3 board, `Array(9).fill(null)`. -/
def emptyBoard : Board := List.replicate 9 none

/-- The `bestScore`/`bestMove` loop of `getAIMove`, abstracted over the score
function: fold the candidate moves, replacing the pair only on strict
improvement.  `getAIMove` is definitionally this fold with
`g = minimax(board with the move applied, 0, false)`. -/
def bestMoveFold (g : Nat → Int) (xs : List Nat) (acc : Int × Nat) : Int × Nat :=
  xs.foldl (fun acc x => if acc.1 < g x then (g x, x) else acc) acc

/-- The AI mark `O` maximizes. -/
def aiTurn : Player → Bool
  | .X => false
  | .O => true

/-! ### An explicit drawing strategy for `O`

Auxiliary material for claim C1: a cheap handwritten strategy for the `O`
mark, together with a checker that exhaustively verifies, over every `X`
reply sequence from the empty board, that following this strategy never
ends in an `X` win.  The checker is a small decidable computation (the `O`
side is a single move per position), and a generic lemma below lifts it to
the statement that the game value of the empty board is favourable to `O`. -/

/-- Number of `p` marks on line `l`. -/
def markCount (squares : Board) (p : Player) (l : Nat × Nat × Nat) : Nat :=
  (if cellAt squares l.1 = some p then 1 else 0) +
  (if cellAt squares l.2.1 = some p then 1 else 0) +
  (if cellAt squares l.2.2 = some p then 1 else 0)

/-- The empty cells of line `l`. -/
def lineEmpties (squares : Board) (l : Nat × Nat × Nat) : List Nat :=
  [l.1, l.2.1, l.2.2].filter (fun i => cellAt squares i = none)

/-- A cell whose occupation by `p` wins at once: the free third cell of a
line already holding two `p` marks. -/
def winningMoveFor (squares : Board) (p : Player) : Option Nat :=
  (WINNING_COMBINATIONS.filterMap (fun l =>
    if markCount squares p l = 2 then (lineEmpties squares l).head? else none)).head?

/-- Number of lines through `c` holding exactly one `X` mark and no `O`
mark: an `X` mark on `c` would turn each of them into an immediate threat. -/
def xThreatLines (squares : Board) (c : Nat) : Nat :=
  (WINNING_COMBINATIONS.filter (fun l =>
    (decide (c = l.1) || decide (c = l.2.1) || decide (c = l.2.2)) &&
    decide (markCount squares .X l = 1) &&
    decide (markCount squares .O l = 0))).length

/-- Empty cells where an `X` mark would create two simultaneous winning
threats (a fork). -/
def forkSquares (squares : Board) : List Nat :=
  (getEmptySquares squares).filter (fun c => 2 ≤ xThreatLines squares c)

/-- First cell of `l` that is empty on `squares`. -/
def firstFree (squares : Board) (l : List Nat) : Option Nat :=
  l.find? (fun i => cellAt squares i = none)

/-- First empty cell where an `O` mark creates at least one immediate `O`
threat (a line with two `O` marks and a free third cell), all of whose
forced `X` blocks leave `X` without a double threat. -/
def safeCounterThreat (squares : Board) : Option Nat :=
  (getEmptySquares squares).find? (fun mv =>
    let b' := squares.set mv (some .O)
    let ws := WINNING_COMBINATIONS.filterMap (fun l =>
      if markCount b' .O l = 2 && markCount b' .X l = 0
      then (lineEmpties b' l).head? else none)
    !ws.isEmpty && ws.all (fun w => xThreatLines b' w ≤ 1))

/-- The handwritten `O` strategy: win if possible, else block an immediate
`X` win, else occupy `X`'s unique fork square, else (against a double fork)
make a counter-threat whose forced block creates no `X` fork, else take the
center, the first free corner, or the first free edge. -/
def stratO (squares : Board) : Nat :=
  match winningMoveFor squares .O with
  | some mv => mv
  | none =>
    match winningMoveFor squares .X with
    | some mv => mv
    | none =>
      match forkSquares squares with
      | [f] => f
      | [] =>
        if cellAt squares 4 = none then 4
        else
          match firstFree squares [0, 2, 6, 8] with
          | some mv => mv
          | none => (firstFree squares [1, 3, 5, 7]).getD 0
      | _ =>
        match safeCounterThreat squares with
        | some mv => mv
        | none => (firstFree squares [1, 3, 5, 7]).getD 0

/-- Exhaustive checker: with `O` answering every position by `stratO` and
`X` ranging over all empty cells, no playout from `squares` reaches an `X`
win.  `oTurn` tells whose move it is; `fuel` bounds the recursion and is
instantiated with the number of cells. -/
def drawCheck : Nat → Board → Bool → Bool
  | 0, squares, _ =>
    match resultOf squares with
    | some r => decide (r ≠ .win .X)
    | none => false
  | fuel' + 1, squares, oTurn =>
    match resultOf squares with
    | some r => decide (r ≠ .win .X)
    | none =>
      if oTurn then
        let mv := stratO squares
        decide (mv < squares.length) && decide (cellAt squares mv = none) &&
          drawCheck fuel' (squares.set mv (some .O)) false
      else
        (getEmptySquares squares).all
          (fun mv => drawCheck fuel' (squares.set mv (some .X)) true)

/-! ### The in-place searching versions (claim C9)

The source's `minimax` and `getAIMove` mutate one shared board array:
`squares[move] = mark; ... ; squares[move] = null`.  The following versions
model that mutation by threading the array through the search and returning
it together with the computed value. -/

/-- `minimax` with the array mutation made explicit: each loop iteration
sets the trial mark, recurses on the mutated array, then writes `null`
back; the final array is returned alongside the score. -/
def minimaxSt : Nat → Board → Nat → Bool → Int × Board
  | 0, squares, depth, _ =>
    match resultOf squares with
    | some (.win .O) => (10 - (depth : Int), squares)
    | some (.win .X) => ((depth : Int) - 10, squares)
    | some .draw => (0, squares)
    | none => (0, squares)
  | fuel' + 1, squares, depth, isMaximizing =>
    match resultOf squares with
    | some (.win .O) => (10 - (depth : Int), squares)
    | some (.win .X) => ((depth : Int) - 10, squares)
    | some .draw => (0, squares)
    | none =>
      let emptySquares := getEmptySquares squares
      if isMaximizing then
        emptySquares.foldl
          (fun acc mv =>
            let res := minimaxSt fuel' (acc.2.set mv (some .O)) (depth + 1) false
            (max acc.1 res.1, res.2.set mv none))
          (NEG_INFINITY, squares)
      else
        emptySquares.foldl
          (fun acc mv =>
            let res := minimaxSt fuel' (acc.2.set mv (some .X)) (depth + 1) true
            (min acc.1 res.1, res.2.set mv none))
          (POS_INFINITY, squares)

/-- `getAIMove` (hard path) with the array mutation made explicit. -/
def getAIMoveSt (squares : Board) : Nat × Board :=
  let emptySquares := getEmptySquares squares
  let r := emptySquares.foldl
    (fun (acc : Int × Nat × Board) mv =>
      let res := minimaxSt squares.length (acc.2.2.set mv (some .O)) 0 false
      let restored := res.2.set mv none
      if acc.1 < res.1 then (res.1, mv, restored) else (acc.1, acc.2.1, restored))
    (NEG_INFINITY, emptySquares.headD 0, squares)
  (r.2.1, r.2.2)

/-! ### The reference minimax of the specification (claim C2) -/

/-- Definition following the specification's words, for comparison with the
source's `minimax`: "exhaustive minimax over the full remaining game tree;
score for a terminal leaf at search depth `d`: AI-mark win → `10 - d`,
human-mark win → `d - 10`, draw → `0`; AI turns maximize, opponent turns
minimize". -/
def minimaxSpec : Nat → Board → Nat → Bool → Int
  | 0, squares, depth, _ =>
    match resultOf squares with
    | some (.win .O) => 10 - (depth : Int)
    | some (.win .X) => (depth : Int) - 10
    | some .draw => 0
    | none => 0
  | fuel' + 1, squares, depth, aiTurn =>
    match resultOf squares with
    | some (.win .O) => 10 - (depth : Int)
    | some (.win .X) => (depth : Int) - 10
    | some .draw => 0
    | none =>
      let vals := (getEmptySquares squares).map
        (fun mv =>
          minimaxSpec fuel' (squares.set mv (some (if aiTurn then .O else .X)))
            (depth + 1) (!aiTurn))
      if aiTurn then vals.foldl max (vals.headD 0) else vals.foldl min (vals.headD 0)

/-! ### Full component state and `handleClick` (claim C4) -/

/-- `GameStats = { wins, losses, draws }`. -/
structure GameStats where
  wins : Nat
  losses : Nat
  draws : Nat
deriving DecidableEq, Repr

/-- The component state touched by `handleClick`. -/
structure GameState where
  board : Board
  currentPlayer : Player
  winner : Option GameResult
  winningLine : Option (Nat × Nat × Nat)
  stats : GameStats
deriving DecidableEq, Repr

/-- JS array assignment `a[i] = v`: an in-range index updates in place; an
index at or past the length grows the array, padding skipped positions with
holes (read back as `undefined`, modelled `none`). -/
def jsSet (l : Board) (i : Nat) (v : Option Player) : Board :=
  if i < l.length then l.set i v
  else l ++ List.replicate (i - l.length) none ++ [v]

/-- `updateStats`: win/loss attributed from the human mark `X`'s perspective. -/
def updateStats (result : GameResult) (prev : GameStats) : GameStats :=
  match result with
  | .draw => { prev with draws := prev.draws + 1 }
  | .win .X => { prev with wins := prev.wins + 1 }
  | .win .O => { prev with losses := prev.losses + 1 }

/-- `handleClick(index)`: `if (board[index] || winner) return;` then place the
current mark, re-evaluate the winner, update stats or swap the player. -/
def handleClick (index : Nat) (s : GameState) : GameState :=
  if (cellAt s.board index).isSome || s.winner.isSome then s
  else
    let newBoard := jsSet s.board index (some s.currentPlayer)
    let checked := checkWinner newBoard
    match checked.1 with
    | some gameWinner =>
      { s with board := newBoard, winner := some gameWinner, winningLine := checked.2,
               stats := updateStats gameWinner s.stats }
    | none =>
      { s with board := newBoard,
               currentPlayer := if s.currentPlayer = .X then .O else .X }

/-- The initial component state. -/
def initialState : GameState :=
  { board := emptyBoard, currentPlayer := .X, winner := none, winningLine := none,
    stats := { wins := 0, losses := 0, draws := 0 } }

/-! ### Hard-difficulty AI-mode playouts (claim C1) -/

/-- Positions reachable in AI mode on `hard` difficulty, together with the
mark to move: `X` (the human) starts on the empty board and may click any
empty cell of the ongoing game; every non-terminal position with `O` to
move is answered by `getAIMove`. -/
inductive HardReach : Board → Player → Prop where
  | init : HardReach emptyBoard .X
  | humanMove (b : Board) (i : Nat) :
      HardReach b .X → resultOf b = none → i < b.length → cellAt b i = none →
      HardReach (b.set i (some .X)) .O
  | aiMove (b : Board) :
      HardReach b .O → resultOf b = none →
      HardReach (b.set (getAIMove b) (some .O)) .X

end TicTacToe

namespace Snake

/-- `GRID_SIZE = 20`. -/
def GRID_SIZE : Int := 20

/-- Grid cell `{x, y}`. -/
structure Position where
  x : Int
  y : Int
deriving DecidableEq, Repr

/-- Direction vector `{x, y}` (the key handler only ever produces the four
unit vectors listed in `arrowDirections`). -/
structure Direction where
  x : Int
  y : Int
deriving DecidableEq, Repr

/-- The four vectors of the arrow-key table. -/
def arrowDirections : List Direction := [⟨0, -1⟩, ⟨0, 1⟩, ⟨-1, 0⟩, ⟨1, 0⟩]

/-- `INITIAL_SNAKE = [{x: 10, y: 10}]`. -/
def INITIAL_SNAKE : List Position := [⟨10, 10⟩]

/-- `INITIAL_DIRECTION = {x: 1, y: 0}`. -/
def INITIAL_DIRECTION : Direction := ⟨1, 0⟩

/-- The engine state of the snake game. -/
structure SnakeState where
  snake : List Position
  direction : Direction
  food : Position
  gameOver : Bool
  score : Nat
  isPaused : Bool
deriving DecidableEq, Repr

/-- JS `%` keeps the sign of the dividend: `Int.tmod`. -/
def jsMod (a b : Int) : Int := Int.tmod a b

/-- `(currentSnake[0] + direction + GRID_SIZE) % GRID_SIZE` componentwise
(the source indexes `currentSnake[0]`; the snake is never empty). -/
def newHeadOf (s : SnakeState) : Position :=
  match s.snake with
  | [] => ⟨0, 0⟩
  | head :: _ =>
    ⟨jsMod (head.x + s.direction.x + GRID_SIZE) GRID_SIZE,
     jsMod (head.y + s.direction.y + GRID_SIZE) GRID_SIZE⟩

/-- `moveSnake`: one timer tick.  The food respawn position (the source
draws it from the ambient random source) is supplied as `newFood`. -/
def moveSnake (newFood : Position) (s : SnakeState) : SnakeState :=
  if s.gameOver || s.isPaused then s
  else
    let newHead := newHeadOf s
    if s.snake.any (fun seg => decide (seg.x = newHead.x ∧ seg.y = newHead.y)) then
      { s with gameOver := true }
    else
      let newSnake := newHead :: s.snake
      if newHead.x = s.food.x ∧ newHead.y = s.food.y then
        { s with snake := newSnake, score := s.score + 1, food := newFood }
      else
        { s with snake := newSnake.dropLast }

/-- `0 ≤ x, y < GRID_SIZE`. -/
def inGrid (p : Position) : Prop :=
  0 ≤ p.x ∧ p.x < GRID_SIZE ∧ 0 ≤ p.y ∧ p.y < GRID_SIZE

instance (p : Position) : Decidable (inGrid p) := by
  unfold inGrid; infer_instance

end Snake

namespace Pacman

/-- `GRID_SIZE = 15`. -/
def GRID_SIZE : Nat := 15

/-- Grid cell `{x, y}`. -/
structure Position where
  x : Int
  y : Int
deriving DecidableEq, Repr

/-- `type Direction = 'up' | 'down' | 'left' | 'right'`. -/
inductive Direction where
  | up
  | down
  | left
  | right
deriving DecidableEq, Repr

/-- `INITIAL_PACMAN = {x: 7, y: 11}`. -/
def INITIAL_PACMAN : Position := ⟨7, 11⟩

/-- `INITIAL_GHOSTS`. -/
def INITIAL_GHOSTS : List Position := [⟨1, 1⟩, ⟨13, 1⟩, ⟨1, 13⟩, ⟨13, 13⟩]

/-- The wall set: the four outer rows/columns plus the inner obstacles. -/
def WALLS : List Position :=
  ((List.range GRID_SIZE).map (fun i => (⟨(i : Int), 0⟩ : Position))) ++
  ((List.range GRID_SIZE).map (fun i => (⟨(i : Int), (GRID_SIZE : Int) - 1⟩ : Position))) ++
  ((List.range GRID_SIZE).map (fun i => (⟨0, (i : Int)⟩ : Position))) ++
  ((List.range GRID_SIZE).map (fun i => (⟨(GRID_SIZE : Int) - 1, (i : Int)⟩ : Position))) ++
  [⟨3, 3⟩, ⟨4, 3⟩, ⟨5, 3⟩, ⟨9, 3⟩, ⟨10, 3⟩, ⟨11, 3⟩,
   ⟨3, 11⟩, ⟨4, 11⟩, ⟨5, 11⟩, ⟨9, 11⟩, ⟨10, 11⟩, ⟨11, 11⟩,
   ⟨7, 5⟩, ⟨7, 6⟩, ⟨7, 7⟩, ⟨7, 9⟩, ⟨7, 8⟩]

/-- `isWall(pos)`. -/
def isWall (pos : Position) : Bool :=
  WALLS.any (fun wall => wall.x == pos.x && wall.y == pos.y)

/-- One adversary step: choose among the four neighbour cells that are not
walls (`randomMove || ghost`: stay if there is none).  The index drawn from
the random source is supplied as `r`. -/
def moveGhost (r : Nat) (ghost : Position) : Position :=
  let possibleMoves :=
    ([⟨ghost.x + 1, ghost.y⟩, ⟨ghost.x - 1, ghost.y⟩,
      ⟨ghost.x, ghost.y + 1⟩, ⟨ghost.x, ghost.y - 1⟩] : List Position).filter
      (fun pos => !isWall pos)
  match possibleMoves.get? (r % possibleMoves.length) with
  | some mv => mv
  | none => ghost

/-- `moveGhosts`: each adversary steps independently, consuming its own
random draw. -/
def moveGhosts : List Nat → List Position → List Position
  | _, [] => []
  | rs, g :: gs => moveGhost (rs.headD 0) g :: moveGhosts rs.tail gs

/-- The destination one step in direction `d`. -/
def movedPacman (d : Direction) (p : Position) : Position :=
  match d with
  | .up => ⟨p.x, p.y - 1⟩
  | .down => ⟨p.x, p.y + 1⟩
  | .left => ⟨p.x - 1, p.y⟩
  | .right => ⟨p.x + 1, p.y⟩

/-- The chase-engine state relevant to the wall invariant. -/
structure PacState where
  pacman : Position
  ghosts : List Position
  direction : Direction
deriving DecidableEq, Repr

/-- One movement interval: the player steps in the current direction unless
the destination is a wall (`if (isWall(newPos)) return current`), then the
adversaries random-walk. -/
def tick (rs : List Nat) (s : PacState) : PacState :=
  let newPos := movedPacman s.direction s.pacman
  { s with pacman := if isWall newPos then s.pacman else newPos,
           ghosts := moveGhosts rs s.ghosts }

/-- Direction command. -/
def setDirection (d : Direction) (s : PacState) : PacState :=
  { s with direction := d }

/-- The initial state (also the target of `resetGame`). -/
def initialState : PacState := ⟨INITIAL_PACMAN, INITIAL_GHOSTS, .right⟩

/-- States reachable by any sequence of ticks, direction commands and
resets, over all random choices. -/
inductive Reach : PacState → Prop where
  | init : Reach initialState
  | tick (s : PacState) (rs : List Nat) : Reach s → Reach (tick rs s)
  | setDir (s : PacState) (d : Direction) : Reach s → Reach (setDirection d s)
  | reset (s : PacState) : Reach s → Reach initialState

end Pacman

namespace Hangman

/-- `type Difficulty = 'easy' | 'medium' | 'hard'`. -/
inductive Difficulty where
  | easy
  | medium
  | hard
deriving DecidableEq, Repr

/-- Game status. -/
inductive Status where
  | playing
  | won
  | lost
deriving DecidableEq, Repr

/-- `interface Word { word, hint, difficulty }` (the word as its character
list). -/
structure Word where
  word : List Char
  hint : String
  difficulty : Difficulty
deriving DecidableEq, Repr

/-- `MAX_TRIES = 6`. -/
def MAX_TRIES : Nat := 6

/-- `difficultyMultiplier = { easy: 1, medium: 1.5, hard: 2 }`. -/
def difficultyMultiplier : Difficulty → ℚ
  | .easy => 1
  | .medium => 1.5
  | .hard => 2

/-- `calculateWordScore`: `Math.round(word.length * 10 *
difficultyMultiplier[difficulty] * (remainingTries / MAX_TRIES))`.  JS
numbers are modelled as exact rationals and `Math.round` as `round`
(half rounds toward `+∞`). -/
def calculateWordScore (word : List Char) (remainingTries : Int) (difficulty : Difficulty) :
    Int :=
  round ((word.length : ℚ) * 10 * difficultyMultiplier difficulty *
    ((remainingTries : ℚ) / (MAX_TRIES : ℚ)))

/-- The engine state of the word-guess game. -/
structure HState where
  currentWord : Word
  guessedLetters : List Char
  remainingTries : Int
  gameStatus : Status
  score : Int
  highScore : Int
  streak : Nat
deriving DecidableEq, Repr

/-- `new Set(guessedLetters).add(letter)`: adding an existing member leaves
the set unchanged; the list keeps the JS `Set` insertion order. -/
def addToSet (s : List Char) (c : Char) : List Char :=
  if c ∈ s then s else s ++ [c]

/-- `guessLetter(letter)`: the only guard is `gameStatus !== 'playing'`. -/
def guessLetter (letter : Char) (s : HState) : HState :=
  if s.gameStatus ≠ .playing then s
  else
    let newGuessedLetters := addToSet s.guessedLetters letter
    if letter ∉ s.currentWord.word then
      let newRemainingTries := s.remainingTries - 1
      if newRemainingTries = 0 then
        { s with guessedLetters := newGuessedLetters,
                 remainingTries := newRemainingTries,
                 gameStatus := .lost, streak := 0 }
      else
        { s with guessedLetters := newGuessedLetters,
                 remainingTries := newRemainingTries }
    else
      if s.currentWord.word.all (fun ch => decide (ch ∈ newGuessedLetters)) then
        let wordScore :=
          calculateWordScore s.currentWord.word s.remainingTries s.currentWord.difficulty
        { s with guessedLetters := newGuessedLetters,
                 score := s.score + wordScore,
                 highScore := max s.highScore (s.score + wordScore),
                 streak := s.streak + 1,
                 gameStatus := .won }
      else
        { s with guessedLetters := newGuessedLetters }

/-- `initializeGame` (also run by `selectCategory`): install the randomly
drawn word (supplied as `w`), clear the guesses, restore the tries budget,
resume playing.  Score, high score and streak are preserved. -/
def initializeGame (w : Word) (s : HState) : HState :=
  { s with currentWord := w, guessedLetters := [], remainingTries := (MAX_TRIES : Int),
           gameStatus := .playing }

/-- The stat-reset button: `setScore(0); setHighScore(0); setStreak(0)`. -/
def resetStats (s : HState) : HState :=
  { s with score := 0, highScore := 0, streak := 0 }

/-- The `useState` initial values. -/
def initialState : HState :=
  { currentWord := ⟨[], "", .easy⟩, guessedLetters := [], remainingTries := (MAX_TRIES : Int),
    gameStatus := .playing, score := 0, highScore := 0, streak := 0 }

/-- States reachable by any sequence of letter guesses, game resets (with an
arbitrary replacement word) and stat resets. -/
inductive Reach : HState → Prop where
  | init : Reach initialState
  | guess (s : HState) (c : Char) : Reach s → Reach (guessLetter c s)
  | newGame (s : HState) (w : Word) : Reach s → Reach (initializeGame w s)
  | statsReset (s : HState) : Reach s → Reach (resetStats s)

/-- The word of the specification's worked example. -/
def snakeWord : Word := ⟨"SNAKE".toList, "Slithering reptile", .easy⟩

end Hangman

/-! ## Theorems -/

namespace TicTacToe

/-! ### Characterizing `getEmptySquares` -/

theorem emptyFold_append (xs : List (Nat × Option Player)) (acc : List Nat) :
    xs.foldl (fun a p => if p.2 = none then a ++ [p.1] else a) acc =
      acc ++ xs.foldl (fun a p => if p.2 = none then a ++ [p.1] else a) [] := by
  induction xs generalizing acc with
  | nil => simp
  | cons x xs ih =>
    simp only [List.foldl_cons]
    rw [ih, ih (if x.2 = none then [] ++ [x.1] else [])]
    by_cases hx : x.2 = none <;> simp [hx]

theorem enumFrom_emptyFold (l : Board) :
    ∀ n : Nat,
      (List.enumFrom n l).foldl (fun a p => if p.2 = none then a ++ [p.1] else a) [] =
        ((List.range l.length).filter (fun i => decide (cellAt l i = none))).map (n + ·) := by
  induction l with
  | nil => intro n; simp
  | cons c t ih =>
    intro n
    rw [List.enumFrom_cons, List.foldl_cons, emptyFold_append]
    rw [ih (n + 1)]
    rw [List.length_cons, List.range_succ_eq_map]
    rw [List.filter_cons]
    have hpred : (fun i => decide (cellAt (c :: t) i = none)) ∘ Nat.succ =
        fun i => decide (cellAt t i = none) := by
      funext i
      simp [cellAt, Function.comp]
    have htail : ((List.range t.length).map Nat.succ).filter
          (fun i => decide (cellAt (c :: t) i = none)) =
        ((List.range t.length).filter (fun i => decide (cellAt t i = none))).map Nat.succ := by
      rw [List.filter_map, hpred]
    have hmaps : ∀ xs : List Nat, (xs.map Nat.succ).map (n + ·) = xs.map (n + 1 + ·) := by
      intro xs
      rw [List.map_map]
      apply List.map_congr_left
      intro i _
      simp [Function.comp]
      omega
    by_cases hc : c = none
    · have hc' : decide (cellAt (c :: t) 0 = none) = true := by simp [cellAt, hc]
      rw [if_pos hc', if_pos hc]
      rw [List.map_cons, htail, hmaps]
      simp
    · have hc' : decide (cellAt (c :: t) 0 = none) = false := by simp [cellAt, hc]
      rw [if_neg hc, if_neg (by simp [hc'])]
      rw [htail, hmaps]
      simp

theorem getEmptySquares_eq (s : Board) :
    getEmptySquares s =
      (List.range s.length).filter (fun i => decide (cellAt s i = none)) := by
  have h := enumFrom_emptyFold s 0
  simp only [Nat.zero_add] at h
  unfold getEmptySquares
  rw [show s.enum = List.enumFrom 0 s from rfl, h]
  simp

theorem mem_getEmptySquares {s : Board} {i : Nat} :
    i ∈ getEmptySquares s ↔ i < s.length ∧ cellAt s i = none := by
  rw [getEmptySquares_eq]
  simp [List.mem_filter, List.mem_range]

theorem pairwise_getEmptySquares (s : Board) :
    (getEmptySquares s).Pairwise (· < ·) := by
  rw [getEmptySquares_eq]
  exact (List.sorted_lt_range s.length).sublist (List.filter_sublist _)

theorem length_getEmptySquares_le (s : Board) :
    (getEmptySquares s).length ≤ s.length := by
  rw [getEmptySquares_eq]
  simpa using
    List.length_filter_le (fun i => decide (cellAt s i = none)) (List.range s.length)

end TicTacToe

namespace TicTacToe

theorem cellAt_set_self {s : Board} {i : Nat} (h : i < s.length) (v : Option Player) :
    cellAt (s.set i v) i = v := by
  simp only [cellAt, List.getD_eq_get?]
  rw [List.get?_set_eq_of_lt _ h]
  rfl

theorem cellAt_set_ne {s : Board} {i j : Nat} (h : i ≠ j) (v : Option Player) :
    cellAt (s.set i v) j = cellAt s j := by
  simp only [cellAt, List.getD_eq_get?]
  rw [List.get?_set_ne _ _ h]

theorem filter_range_congr_at (n i : Nat) (hi : i < n) (p q : Nat → Bool)
    (hne : ∀ j, j ≠ i → q j = p j) (hp : p i = true) (hq : q i = false) :
    ((List.range n).filter q).length + 1 = ((List.range n).filter p).length := by
  induction n with
  | zero => omega
  | succ k ihk =>
    rw [List.range_succ, List.filter_append, List.filter_append,
      List.length_append, List.length_append]
    by_cases hik : i = k
    · subst hik
      have hhead : (List.range i).filter q = (List.range i).filter p := by
        apply List.filter_congr
        intro j hj
        exact hne j (by simp at hj; omega)
      rw [hhead]
      simp [hp, hq]
    · have hi' : i < k := by omega
      have htail : ([k].filter q).length = ([k].filter p).length := by
        have : q k = p k := hne k (by omega)
        simp only [List.filter, this]
      rw [htail]
      have := ihk hi'
      omega

theorem length_getEmptySquares_set {s : Board} {i : Nat} (hm : i ∈ getEmptySquares s)
    (p : Player) :
    (getEmptySquares (s.set i (some p))).length + 1 = (getEmptySquares s).length := by
  obtain ⟨hi, hc⟩ := mem_getEmptySquares.mp hm
  rw [getEmptySquares_eq, getEmptySquares_eq, List.length_set]
  exact filter_range_congr_at s.length i hi _ _
    (fun j hj => by rw [cellAt_set_ne (fun h => hj h.symm)])
    (by simp [hc])
    (by simp [cellAt_set_self hi])

theorem get?_of_mem_getEmptySquares {s : Board} {i : Nat} (hm : i ∈ getEmptySquares s) :
    s.get? i = some none := by
  obtain ⟨hi, hc⟩ := mem_getEmptySquares.mp hm
  rcases hg : s.get? i with _ | v
  · exact absurd (List.get?_eq_none.mp hg) (by omega)
  · simp only [cellAt, List.getD_eq_get?, hg, Option.getD_some] at hc
    rw [hc]

theorem set_get?_self {s : Board} {i : Nat} {v : Option Player} (h : s.get? i = some v) :
    s.set i v = s := by
  induction s generalizing i with
  | nil => rfl
  | cons c t ih =>
    cases i with
    | zero => simp at h; simp [h]
    | succ j => simp only [List.get?_cons_succ] at h; simp [List.set_cons_succ, ih h]

theorem getEmptySquares_ne_nil {s : Board} (h : resultOf s = none) :
    getEmptySquares s ≠ [] := by
  have hall : s.all (fun c => c.isSome) = false := by
    unfold resultOf checkWinner at h
    rcases hf : findWonLine WINNING_COMBINATIONS s with _ | ⟨p, l⟩
    · rw [hf] at h
      dsimp at h
      rcases hc : s.all (fun c => c.isSome)
      · rfl
      · rw [hc] at h; simp at h
    · rw [hf] at h; simp at h
  obtain ⟨x, hx, hxs⟩ := List.all_eq_false.mp hall
  have hxnone : x = none := by
    rcases x with _ | v
    · rfl
    · simp at hxs
  subst hxnone
  obtain ⟨k, hk⟩ := List.mem_iff_get?.mp hx
  have hklen : k < s.length := by
    by_contra hge
    rw [List.get?_eq_none.mpr (by omega)] at hk
    exact Option.noConfusion hk
  have hcell : cellAt s k = none := by
    have hk' : s[k]? = some none := by rw [← List.get?_eq_getElem?]; exact hk
    simp [cellAt, List.getD_eq_getElem?_getD, hk']
  exact List.ne_nil_of_mem (mem_getEmptySquares.mpr ⟨hklen, hcell⟩)

end TicTacToe

namespace TicTacToe

/-! ### Folded maxima and minima over `Int` -/

theorem foldl_max_nonneg_iff {α : Type} (g : α → Int) :
    ∀ (xs : List α) (a : Int),
      0 ≤ xs.foldl (fun b x => max b (g x)) a ↔ 0 ≤ a ∨ ∃ x ∈ xs, 0 ≤ g x := by
  intro xs
  induction xs with
  | nil => simp
  | cons x t ih =>
    intro a
    rw [List.foldl_cons, ih]
    simp only [le_max_iff, List.mem_cons]
    constructor
    · rintro (⟨h | h⟩ | ⟨y, hy, hgy⟩)
      · exact Or.inl h
      · exact Or.inr ⟨x, Or.inl rfl, h⟩
      · exact Or.inr ⟨y, Or.inr hy, hgy⟩
    · rintro (h | ⟨y, rfl | hy, hgy⟩)
      · exact Or.inl (Or.inl h)
      · exact Or.inl (Or.inr hgy)
      · exact Or.inr ⟨y, hy, hgy⟩

theorem foldl_min_nonneg_iff {α : Type} (g : α → Int) :
    ∀ (xs : List α) (a : Int),
      0 ≤ xs.foldl (fun b x => min b (g x)) a ↔ 0 ≤ a ∧ ∀ x ∈ xs, 0 ≤ g x := by
  intro xs
  induction xs with
  | nil => simp
  | cons x t ih =>
    intro a
    rw [List.foldl_cons, ih]
    simp only [le_min_iff, List.mem_cons]
    constructor
    · rintro ⟨⟨ha, hx⟩, hall⟩
      exact ⟨ha, fun y hy => hy.elim (fun h => h ▸ hx) (hall y)⟩
    · rintro ⟨ha, hall⟩
      exact ⟨⟨ha, hall x (Or.inl rfl)⟩, fun y hy => hall y (Or.inr hy)⟩

theorem le_foldl_max {α : Type} (g : α → Int) :
    ∀ (xs : List α) (a : Int), a ≤ xs.foldl (fun b x => max b (g x)) a := by
  intro xs
  induction xs with
  | nil => simp
  | cons x t ih =>
    intro a
    rw [List.foldl_cons]
    exact le_trans (le_max_left _ _) (ih _)

theorem foldl_max_ge_mem {α : Type} (g : α → Int) :
    ∀ (xs : List α) (a : Int) (x : α), x ∈ xs → g x ≤ xs.foldl (fun b x => max b (g x)) a := by
  intro xs
  induction xs with
  | nil => intro a x hx; simp at hx
  | cons y t ih =>
    intro a x hx
    rw [List.foldl_cons]
    rcases List.mem_cons.mp hx with rfl | hx
    · exact le_trans (le_max_right _ _) (le_foldl_max g t _)
    · exact ih _ x hx

theorem foldl_max_le {α : Type} (g : α → Int) :
    ∀ (xs : List α) (a c : Int), a ≤ c → (∀ x ∈ xs, g x ≤ c) →
      xs.foldl (fun b x => max b (g x)) a ≤ c := by
  intro xs
  induction xs with
  | nil => intro a c ha _; simpa using ha
  | cons y t ih =>
    intro a c ha hall
    rw [List.foldl_cons]
    exact ih _ c (max_le ha (hall y (List.mem_cons_self _ _)))
      (fun x hx => hall x (List.mem_cons_of_mem _ hx))

theorem foldl_min_le {α : Type} (g : α → Int) :
    ∀ (xs : List α) (a : Int), xs.foldl (fun b x => min b (g x)) a ≤ a := by
  intro xs
  induction xs with
  | nil => simp
  | cons x t ih =>
    intro a
    rw [List.foldl_cons]
    exact le_trans (ih _) (min_le_left _ _)

theorem foldl_min_le_mem {α : Type} (g : α → Int) :
    ∀ (xs : List α) (a : Int) (x : α), x ∈ xs → xs.foldl (fun b x => min b (g x)) a ≤ g x := by
  intro xs
  induction xs with
  | nil => intro a x hx; simp at hx
  | cons y t ih =>
    intro a x hx
    rw [List.foldl_cons]
    rcases List.mem_cons.mp hx with rfl | hx
    · exact le_trans (foldl_min_le g t _) (min_le_right _ _)
    · exact ih _ x hx

theorem foldl_min_ge {α : Type} (g : α → Int) :
    ∀ (xs : List α) (a c : Int), c ≤ a → (∀ x ∈ xs, c ≤ g x) →
      c ≤ xs.foldl (fun b x => min b (g x)) a := by
  intro xs
  induction xs with
  | nil => intro a c hc _; simpa using hc
  | cons y t ih =>
    intro a c hc hall
    rw [List.foldl_cons]
    exact ih _ c (le_min hc (hall y (List.mem_cons_self _ _)))
      (fun x hx => hall x (List.mem_cons_of_mem _ hx))

/-! ### Unfolding `minimax` -/

theorem minimax_terminal (f : Nat) (s : Board) (d : Nat) (m : Bool) (r : GameResult)
    (h : resultOf s = some r) :
    minimax f s d m = (match r with
      | .win .O => 10 - (d : Int)
      | .win .X => (d : Int) - 10
      | .draw => 0) := by
  rcases r with p | _
  · cases p
    · cases f <;> (simp only [minimax]; rw [h])
    · cases f <;> (simp only [minimax]; rw [h])
  · cases f <;> (simp only [minimax]; rw [h])

theorem minimax_none_zero (s : Board) (d : Nat) (m : Bool) (h : resultOf s = none) :
    minimax 0 s d m = 0 := by
  simp only [minimax]
  rw [h]

theorem minimax_none_max (s : Board) (f d : Nat) (h : resultOf s = none) :
    minimax (f + 1) s d true =
      (getEmptySquares s).foldl
        (fun b mv => max b (minimax f (s.set mv (some .O)) (d + 1) false)) NEG_INFINITY := by
  simp only [minimax]
  rw [h]
  simp

theorem minimax_none_min (s : Board) (f d : Nat) (h : resultOf s = none) :
    minimax (f + 1) s d false =
      (getEmptySquares s).foldl
        (fun b mv => min b (minimax f (s.set mv (some .X)) (d + 1) true)) POS_INFINITY := by
  simp only [minimax]
  rw [h]
  simp

end TicTacToe

namespace TicTacToe

/-! ### Bounds and depth/fuel-independence of the minimax sign -/

theorem minimax_bounds (f : Nat) :
    ∀ (s : Board) (d : Nat) (m : Bool), (getEmptySquares s).length ≤ f →
      -(10 + (d : Int) + f) ≤ minimax f s d m ∧ minimax f s d m ≤ 10 + (d : Int) + f := by
  induction f with
  | zero =>
    intro s d m he
    cases hres : resultOf s with
    | some r =>
      rw [minimax_terminal _ _ _ _ r hres]
      rcases r with p | _
      · cases p <;> (simp only []; constructor <;> omega)
      · simp only []; constructor <;> omega
    | none =>
      exact absurd (List.eq_nil_of_length_eq_zero (by omega))
        (getEmptySquares_ne_nil hres)
  | succ f ih =>
    intro s d m he
    cases hres : resultOf s with
    | some r =>
      rw [minimax_terminal _ _ _ _ r hres]
      rcases r with p | _
      · cases p <;> (simp only []; push_cast; constructor <;> omega)
      · simp only []; push_cast; constructor <;> omega
    | none =>
      have hne := getEmptySquares_ne_nil hres
      obtain ⟨x0, hx0⟩ := List.exists_mem_of_ne_nil _ hne
      cases m
      · rw [minimax_none_min s f d hres]
        constructor
        · apply foldl_min_ge
          · show -(10 + (d : Int) + (f + 1)) ≤ POS_INFINITY
            unfold POS_INFINITY
            push_cast
            omega
          · intro mv hmv
            have hlen := length_getEmptySquares_set hmv Player.X
            have := (ih (s.set mv (some .X)) (d + 1) true (by omega)).1
            push_cast at this ⊢
            omega
        · refine le_trans (foldl_min_le_mem _ _ _ _ hx0) ?_
          have hlen := length_getEmptySquares_set hx0 Player.X
          have := (ih (s.set x0 (some .X)) (d + 1) true (by omega)).2
          push_cast at this ⊢
          omega
      · rw [minimax_none_max s f d hres]
        constructor
        · refine le_trans ?_ (foldl_max_ge_mem _ _ _ _ hx0)
          have hlen := length_getEmptySquares_set hx0 Player.O
          have := (ih (s.set x0 (some .O)) (d + 1) false (by omega)).1
          push_cast at this ⊢
          omega
        · apply foldl_max_le
          · show NEG_INFINITY ≤ 10 + (d : Int) + (f + 1)
            unfold NEG_INFINITY
            push_cast
            omega
          · intro mv hmv
            have hlen := length_getEmptySquares_set hmv Player.O
            have := (ih (s.set mv (some .O)) (d + 1) false (by omega)).2
            push_cast at this ⊢
            omega

end TicTacToe

namespace TicTacToe

/-- The sign of the minimax value of a position depends only on the board
and the side to move: it is unchanged under any admissible re-rooting of
the search (different starting depth, different sufficient fuel). -/
theorem minimax_nonneg_congr (f : Nat) :
    ∀ (f' : Nat) (s : Board) (d d' : Nat) (m : Bool),
      (getEmptySquares s).length ≤ f → (getEmptySquares s).length ≤ f' →
      d + (getEmptySquares s).length ≤ 9 → d' + (getEmptySquares s).length ≤ 9 →
      (0 ≤ minimax f s d m ↔ 0 ≤ minimax f' s d' m) := by
  induction f with
  | zero =>
    intro f' s d d' m h1 h2 h3 h4
    cases hres : resultOf s with
    | some r =>
      rw [minimax_terminal 0 _ _ _ r hres, minimax_terminal f' _ _ _ r hres]
      rcases r with p | _
      · cases p <;> (simp only []; constructor <;> (intro; omega))
      · simp only []
    | none =>
      exact absurd (List.eq_nil_of_length_eq_zero (by omega))
        (getEmptySquares_ne_nil hres)
  | succ f ih =>
    intro f' s d d' m h1 h2 h3 h4
    cases hres : resultOf s with
    | some r =>
      rw [minimax_terminal (f + 1) _ _ _ r hres, minimax_terminal f' _ _ _ r hres]
      rcases r with p | _
      · cases p <;> (simp only []; constructor <;> (intro; omega))
      · simp only []
    | none =>
      cases f' with
      | zero =>
        exact absurd (List.eq_nil_of_length_eq_zero (by omega))
          (getEmptySquares_ne_nil hres)
      | succ f'' =>
        have hchild : ∀ mv ∈ getEmptySquares s, ∀ (p : Player) (mb : Bool),
            (0 ≤ minimax f (s.set mv (some p)) (d + 1) mb ↔
             0 ≤ minimax f'' (s.set mv (some p)) (d' + 1) mb) := by
          intro mv hmv p mb
          have hlen := length_getEmptySquares_set hmv p
          exact ih f'' (s.set mv (some p)) (d + 1) (d' + 1) mb
            (by omega) (by omega) (by omega) (by omega)
        cases m
        · rw [minimax_none_min s f d hres, minimax_none_min s f'' d' hres]
          rw [foldl_min_nonneg_iff, foldl_min_nonneg_iff]
          constructor
          · rintro ⟨hp, hall⟩
            refine ⟨hp, fun mv hmv => ?_⟩
            exact (hchild mv hmv .X true).mp (hall mv hmv)
          · rintro ⟨hp, hall⟩
            refine ⟨hp, fun mv hmv => ?_⟩
            exact (hchild mv hmv .X true).mpr (hall mv hmv)
        · rw [minimax_none_max s f d hres, minimax_none_max s f'' d' hres]
          rw [foldl_max_nonneg_iff, foldl_max_nonneg_iff]
          constructor
          · rintro (hneg | ⟨mv, hmv, hv⟩)
            · exact absurd hneg (by unfold NEG_INFINITY; omega)
            · exact Or.inr ⟨mv, hmv, (hchild mv hmv .O false).mp hv⟩
          · rintro (hneg | ⟨mv, hmv, hv⟩)
            · exact absurd hneg (by unfold NEG_INFINITY; omega)
            · exact Or.inr ⟨mv, hmv, (hchild mv hmv .O false).mpr hv⟩

end TicTacToe

namespace TicTacToe

theorem drawCheck_terminal (f : Nat) (s : Board) (t : Bool) (r : GameResult)
    (h : resultOf s = some r) : drawCheck f s t = decide (r ≠ .win .X) := by
  cases f <;> (simp only [drawCheck]; rw [h])

theorem drawCheck_none_zero (s : Board) (t : Bool) (h : resultOf s = none) :
    drawCheck 0 s t = false := by
  simp only [drawCheck]
  rw [h]

theorem drawCheck_none_oTurn (s : Board) (f : Nat) (h : resultOf s = none) :
    drawCheck (f + 1) s true =
      (decide (stratO s < s.length) && decide (cellAt s (stratO s) = none) &&
        drawCheck f (s.set (stratO s) (some .O)) false) := by
  simp only [drawCheck]
  rw [h]
  simp

theorem drawCheck_none_xTurn (s : Board) (f : Nat) (h : resultOf s = none) :
    drawCheck (f + 1) s false =
      (getEmptySquares s).all (fun mv => drawCheck f (s.set mv (some .X)) true) := by
  simp only [drawCheck]
  rw [h]
  simp

/-- Soundness of the exhaustive checker: if, following `stratO`, no `X`
playout from `s` ends in an `X` win, then the minimax value of `s` is
nonnegative. -/
theorem drawCheck_sound (f : Nat) :
    ∀ (s : Board) (t : Bool),
      (getEmptySquares s).length ≤ f → s.length ≤ 9 →
      drawCheck f s t = true → 0 ≤ minimax s.length s 0 t := by
  induction f with
  | zero =>
    intro s t h1 h2 hd
    cases hres : resultOf s with
    | some r =>
      rw [minimax_terminal _ _ _ _ r hres]
      rw [drawCheck_terminal 0 s t r hres] at hd
      rcases r with p | _
      · cases p
        · simp at hd
        · simp only []; omega
      · simp only []; omega
    | none =>
      rw [drawCheck_none_zero s t hres] at hd
      exact absurd hd (by simp)
  | succ f ih =>
    intro s t h1 h2 hd
    cases hres : resultOf s with
    | some r =>
      rw [minimax_terminal _ _ _ _ r hres]
      rw [drawCheck_terminal (f + 1) s t r hres] at hd
      rcases r with p | _
      · cases p
        · simp at hd
        · simp only []; omega
      · simp only []; omega
    | none =>
      have hne := getEmptySquares_ne_nil hres
      have hepos : 0 < (getEmptySquares s).length := List.length_pos.mpr hne
      have hLpos : 0 < s.length := lt_of_lt_of_le hepos (length_getEmptySquares_le s)
      obtain ⟨L', hL'⟩ : ∃ L', s.length = L' + 1 := ⟨s.length - 1, by omega⟩
      cases t
      · rw [drawCheck_none_xTurn s f hres] at hd
        rw [hL', minimax_none_min s L' 0 hres]
        rw [foldl_min_nonneg_iff]
        refine ⟨by unfold POS_INFINITY; omega, fun mv hmv => ?_⟩
        have hlen := length_getEmptySquares_set hmv Player.X
        have hrec : drawCheck f (s.set mv (some .X)) true = true := by
          have := List.all_eq_true.mp hd mv hmv
          exact this
        have hchild := ih (s.set mv (some .X)) true (by omega)
          (by rw [List.length_set]; omega) hrec
        rw [List.length_set, hL'] at hchild
        exact (minimax_nonneg_congr (L' + 1) L' (s.set mv (some .X)) 0 1 true
          (by have hle := length_getEmptySquares_le s; omega)
          (by have hle := length_getEmptySquares_le s; omega)
          (by have hle := length_getEmptySquares_le s; omega)
          (by have hle := length_getEmptySquares_le s; omega)).mp hchild
      · rw [drawCheck_none_oTurn s f hres] at hd
        rw [hL', minimax_none_max s L' 0 hres]
        rw [foldl_max_nonneg_iff]
        right
        simp only [Bool.and_eq_true] at hd
        obtain ⟨⟨hlt, hcell⟩, hrec⟩ := hd
        have hmem : stratO s ∈ getEmptySquares s :=
          mem_getEmptySquares.mpr ⟨of_decide_eq_true hlt, of_decide_eq_true hcell⟩
        refine ⟨stratO s, hmem, ?_⟩
        have hlen := length_getEmptySquares_set hmem Player.O
        have hchild := ih (s.set (stratO s) (some .O)) false (by omega)
          (by rw [List.length_set]; omega) hrec
        rw [List.length_set, hL'] at hchild
        exact (minimax_nonneg_congr (L' + 1) L' (s.set (stratO s) (some .O)) 0 1 false
          (by have hle := length_getEmptySquares_le s; omega)
          (by have hle := length_getEmptySquares_le s; omega)
          (by have hle := length_getEmptySquares_le s; omega)
          (by have hle := length_getEmptySquares_le s; omega)).mp hchild

end TicTacToe

namespace TicTacToe

/-- One step of the `bestScore`/`bestMove` fold. -/
theorem bestMoveFold_cons (g : Nat → Int) (y : Nat) (t : List Nat) (acc : Int × Nat) :
    bestMoveFold g (y :: t) acc =
      bestMoveFold g t (if acc.1 < g y then (g y, y) else acc) := rfl

/-- The fold either keeps its seed pair or strictly improves on the seed
score. -/
theorem bestMoveFold_spec (g : Nat → Int) :
    ∀ (t : List Nat) (s : Int) (m : Nat),
      bestMoveFold g t (s, m) = (s, m) ∨ s < (bestMoveFold g t (s, m)).1 := by
  intro t
  induction t with
  | nil => intro s m; exact Or.inl rfl
  | cons y t ih =>
    intro s m
    rw [bestMoveFold_cons]
    by_cases hy : s < g y
    · rw [if_pos hy]
      rcases ih (g y) y with heq | hlt
      · exact Or.inr (by rw [heq]; exact hy)
      · exact Or.inr (lt_trans hy hlt)
    · rw [if_neg hy]
      exact ih s m

/-- The final score of the fold is the folded maximum of the seed score and
the candidate scores. -/
theorem bestMoveFold_max (g : Nat → Int) :
    ∀ (t : List Nat) (s : Int) (m : Nat),
      (bestMoveFold g t (s, m)).1 = t.foldl (fun b x => max b (g x)) s := by
  intro t
  induction t with
  | nil => intro s m; rfl
  | cons y t ih =>
    intro s m
    rw [bestMoveFold_cons, List.foldl_cons]
    by_cases hy : s < g y
    · rw [if_pos hy, max_eq_right (le_of_lt hy)]
      exact ih (g y) y
    · rw [if_neg hy, max_eq_left (le_of_not_lt hy)]
      exact ih s m

/-- The final move of the fold is the seed move or a candidate, and its
score is the final score (provided the seed pair is consistent). -/
theorem bestMoveFold_attains (g : Nat → Int) :
    ∀ (t : List Nat) (s : Int) (m : Nat), g m = s →
      ((bestMoveFold g t (s, m)).2 = m ∨ (bestMoveFold g t (s, m)).2 ∈ t) ∧
        g (bestMoveFold g t (s, m)).2 = (bestMoveFold g t (s, m)).1 := by
  intro t
  induction t with
  | nil => intro s m hgm; exact ⟨Or.inl rfl, hgm⟩
  | cons y t ih =>
    intro s m hgm
    rw [bestMoveFold_cons]
    by_cases hy : s < g y
    · rw [if_pos hy]
      obtain ⟨hmem, hval⟩ := ih (g y) y rfl
      refine ⟨?_, hval⟩
      rcases hmem with h | h
      · exact Or.inr (by rw [h]; exact List.mem_cons_self y t)
      · exact Or.inr (List.mem_cons_of_mem _ h)
    · rw [if_neg hy]
      obtain ⟨hmem, hval⟩ := ih s m hgm
      refine ⟨?_, hval⟩
      rcases hmem with h | h
      · exact Or.inl h
      · exact Or.inr (List.mem_cons_of_mem _ h)

/-- Minimality of the final move: a strict `>` comparison keeps the earliest
maximum, so on a strictly increasing candidate list no smaller cell attains
the final score. -/
theorem bestMoveFold_first (g : Nat → Int) :
    ∀ (t : List Nat) (s : Int) (m : Nat), g m = s →
      (m :: t).Pairwise (· < ·) →
      ∀ x, (x = m ∨ x ∈ t) → g x = (bestMoveFold g t (s, m)).1 →
        (bestMoveFold g t (s, m)).2 ≤ x := by
  intro t
  induction t with
  | nil =>
    intro s m hgm _ x hx hgx
    rcases hx with rfl | hx
    · exact le_refl x
    · simp at hx
  | cons y t ih =>
    intro s m hgm hpw x hx hgx
    have hpwyt : (y :: t).Pairwise (· < ·) := List.Pairwise.of_cons hpw
    have hmt : (m :: t).Pairwise (· < ·) := by
      rcases List.pairwise_cons.mp hpw with ⟨hmall, hyt⟩
      exact List.pairwise_cons.mpr
        ⟨fun z hz => hmall z (List.mem_cons_of_mem _ hz), List.Pairwise.of_cons hyt⟩
    rw [bestMoveFold_cons] at hgx ⊢
    by_cases hy : s < g y
    · rw [if_pos hy] at hgx ⊢
      rcases hx with rfl | hx
      · -- x = m: the seed score s is strictly below the final value
        have hfin : s < (bestMoveFold g t (g y, y)).1 := by
          rcases bestMoveFold_spec g t (g y) y with heq | hlt
          · rw [heq]; exact hy
          · exact lt_trans hy hlt
        rw [← hgx] at hfin
        omega
      · exact ih (g y) y rfl hpwyt x (List.mem_cons.mp hx) hgx
    · rw [if_neg hy] at hgx ⊢
      rcases hx with rfl | hx
      · exact ih s x hgm hmt x (Or.inl rfl) hgx
      · rcases List.mem_cons.mp hx with rfl | hxt
        · -- x = y with g y ≤ s: either the fold kept the seed (m precedes y)
          -- or it strictly improved past g y
          rcases bestMoveFold_spec g t s m with heq | hlt
          · rw [heq] at hgx ⊢
            rcases List.pairwise_cons.mp hpw with ⟨hmall, _⟩
            exact le_of_lt (hmall x (List.mem_cons_self _ _))
          · have hyles : g x ≤ s := le_of_not_lt hy
            omega
        · exact ih s m hgm hmt x (Or.inr hxt) hgx

end TicTacToe

namespace TicTacToe

/-- `getAIMove` is the `bestMoveFold` of the per-move minimax scores. -/
theorem getAIMove_eq_bestMoveFold (s : Board) :
    getAIMove s =
      (bestMoveFold (fun mv => minimax s.length (s.set mv (some .O)) 0 false)
        (getEmptySquares s)
        (NEG_INFINITY, (getEmptySquares s).headD 0)).2 := rfl

/-- On a non-terminal board of at most 9 cells, the hard AI move is an empty
cell attaining the maximal per-move minimax score, and it is the least such
cell index. -/
theorem getAIMove_spec (s : Board) (h9 : s.length ≤ 9) (hres : resultOf s = none) :
    getAIMove s ∈ getEmptySquares s ∧
    (∀ mv ∈ getEmptySquares s,
      minimax s.length (s.set mv (some .O)) 0 false ≤
        minimax s.length (s.set (getAIMove s) (some .O)) 0 false) ∧
    (∀ mv ∈ getEmptySquares s,
      minimax s.length (s.set mv (some .O)) 0 false =
        minimax s.length (s.set (getAIMove s) (some .O)) 0 false →
      getAIMove s ≤ mv) := by
  set g := fun mv => minimax s.length (s.set mv (some .O)) 0 false with hg
  have hne := getEmptySquares_ne_nil hres
  obtain ⟨e0, rest, hsplit⟩ : ∃ e0 rest, getEmptySquares s = e0 :: rest := by
    rcases hemp : getEmptySquares s with _ | ⟨e0, rest⟩
    · exact absurd hemp hne
    · exact ⟨e0, rest, rfl⟩
  have hmem0 : e0 ∈ getEmptySquares s := by rw [hsplit]; exact List.mem_cons_self _ _
  have hbound : NEG_INFINITY < g e0 := by
    have hlen := length_getEmptySquares_set hmem0 Player.O
    have hle := length_getEmptySquares_le s
    have := (minimax_bounds s.length (s.set e0 (some .O)) 0 false (by omega)).1
    unfold NEG_INFINITY
    simp only [hg]
    omega
  have hpw : (e0 :: rest).Pairwise (· < ·) := hsplit ▸ pairwise_getEmptySquares s
  have hform : getAIMove s = (bestMoveFold g (e0 :: rest) (NEG_INFINITY, e0)).2 := by
    rw [getAIMove_eq_bestMoveFold, hsplit]
    rfl
  have hstep : bestMoveFold g (e0 :: rest) (NEG_INFINITY, e0) =
      bestMoveFold g rest (g e0, e0) := by
    rw [bestMoveFold_cons, if_pos hbound]
  obtain ⟨hmem, hval⟩ := bestMoveFold_attains g rest (g e0) e0 rfl
  have hmaxeq : (bestMoveFold g rest (g e0, e0)).1 =
      (getEmptySquares s).foldl (fun b mv => max b (g mv)) (g e0) := by
    rw [bestMoveFold_max, hsplit, List.foldl_cons, max_self]
  refine ⟨?_, ?_, ?_⟩
  · rw [hform, hstep, hsplit]
    rcases hmem with h | h
    · rw [h]; exact List.mem_cons_self _ _
    · exact List.mem_cons_of_mem _ h
  · intro mv hmv
    have h1 : g mv ≤ (bestMoveFold g rest (g e0, e0)).1 := by
      rw [hmaxeq]
      rw [hsplit] at hmv ⊢
      rcases List.mem_cons.mp hmv with rfl | hmv'
      · exact le_trans (le_refl _) (le_foldl_max g _ _) |>.trans_eq (by rw [List.foldl_cons, max_self])
      · rw [List.foldl_cons, max_self]
        exact foldl_max_ge_mem g rest (g e0) mv hmv'
    calc g mv ≤ (bestMoveFold g rest (g e0, e0)).1 := h1
      _ = g (bestMoveFold g rest (g e0, e0)).2 := hval.symm
      _ = g (getAIMove s) := by rw [hform, hstep]
  · intro mv hmv hveq
    have := bestMoveFold_first g rest (g e0) e0 rfl hpw mv
      (by rw [hsplit] at hmv; exact List.mem_cons.mp hmv)
      (by rw [← hval]; rw [hform, hstep] at hveq; exact hveq)
    rw [hform, hstep]
    exact this

end TicTacToe

namespace TicTacToe

theorem minimaxSpec_terminal (f : Nat) (s : Board) (d : Nat) (m : Bool) (r : GameResult)
    (h : resultOf s = some r) :
    minimaxSpec f s d m = (match r with
      | .win .O => 10 - (d : Int)
      | .win .X => (d : Int) - 10
      | .draw => 0) := by
  rcases r with p | _
  · cases p
    · cases f <;> (simp only [minimaxSpec]; rw [h])
    · cases f <;> (simp only [minimaxSpec]; rw [h])
  · cases f <;> (simp only [minimaxSpec]; rw [h])

theorem minimaxSpec_none_max (s : Board) (f d : Nat) (h : resultOf s = none) :
    minimaxSpec (f + 1) s d true =
      ((getEmptySquares s).map
          (fun mv => minimaxSpec f (s.set mv (some .O)) (d + 1) false)).foldl max
        (((getEmptySquares s).map
          (fun mv => minimaxSpec f (s.set mv (some .O)) (d + 1) false)).headD 0) := by
  simp only [minimaxSpec]
  rw [h]
  simp

theorem minimaxSpec_none_min (s : Board) (f d : Nat) (h : resultOf s = none) :
    minimaxSpec (f + 1) s d false =
      ((getEmptySquares s).map
          (fun mv => minimaxSpec f (s.set mv (some .X)) (d + 1) true)).foldl min
        (((getEmptySquares s).map
          (fun mv => minimaxSpec f (s.set mv (some .X)) (d + 1) true)).headD 0) := by
  simp only [minimaxSpec]
  rw [h]
  simp

theorem foldl_congr_mem {α β : Type} (f g : β → α → β) :
    ∀ (xs : List α) (b : β), (∀ x ∈ xs, ∀ acc, f acc x = g acc x) →
      xs.foldl f b = xs.foldl g b := by
  intro xs
  induction xs with
  | nil => intro b _; rfl
  | cons y t ih =>
    intro b hall
    rw [List.foldl_cons, List.foldl_cons, hall y (List.mem_cons_self _ _) b]
    exact ih _ (fun x hx acc => hall x (List.mem_cons_of_mem _ hx) acc)

/-- The reference minimax of the specification computes the same value as
the source's `minimax` (whenever the fuel suffices and the search fits a
3×3 board). -/
theorem minimaxSpec_eq_minimax (f : Nat) :
    ∀ (s : Board) (d : Nat) (m : Bool),
      (getEmptySquares s).length ≤ f → d + f ≤ 18 →
      minimaxSpec f s d m = minimax f s d m := by
  induction f with
  | zero =>
    intro s d m h1 _
    cases hres : resultOf s with
    | some r => rw [minimaxSpec_terminal _ _ _ _ r hres, minimax_terminal _ _ _ _ r hres]
    | none =>
      exact absurd (List.eq_nil_of_length_eq_zero (by omega))
        (getEmptySquares_ne_nil hres)
  | succ f ih =>
    intro s d m h1 hdf
    cases hres : resultOf s with
    | some r => rw [minimaxSpec_terminal _ _ _ _ r hres, minimax_terminal _ _ _ _ r hres]
    | none =>
      have hne := getEmptySquares_ne_nil hres
      obtain ⟨e0, rest, hsplit⟩ : ∃ e0 rest, getEmptySquares s = e0 :: rest := by
        rcases hemp : getEmptySquares s with _ | ⟨e0, rest⟩
        · exact absurd hemp hne
        · exact ⟨e0, rest, rfl⟩
      have hchild : ∀ mv ∈ getEmptySquares s, ∀ (p : Player) (mb : Bool),
          minimaxSpec f (s.set mv (some p)) (d + 1) mb =
            minimax f (s.set mv (some p)) (d + 1) mb := by
        intro mv hmv p mb
        have hlen := length_getEmptySquares_set hmv p
        exact ih (s.set mv (some p)) (d + 1) mb (by omega) (by omega)
      have hcbound : ∀ mv ∈ getEmptySquares s, ∀ (p : Player) (mb : Bool),
          -(30 : Int) ≤ minimax f (s.set mv (some p)) (d + 1) mb ∧
            minimax f (s.set mv (some p)) (d + 1) mb ≤ 30 := by
        intro mv hmv p mb
        have hlen := length_getEmptySquares_set hmv p
        have := minimax_bounds f (s.set mv (some p)) (d + 1) mb (by omega)
        push_cast at this
        omega
      have hmem0 : e0 ∈ getEmptySquares s := by rw [hsplit]; exact List.mem_cons_self _ _
      cases m
      · rw [minimaxSpec_none_min s f d hres, minimax_none_min s f d hres]
        rw [hsplit, List.map_cons, List.headD_cons, List.foldl_cons, List.foldl_cons]
        rw [List.foldl_map]
        rw [hchild e0 hmem0 .X true, min_self]
        rw [min_eq_right (by
          have := (hcbound e0 hmem0 .X true).2
          unfold POS_INFINITY
          omega)]
        apply foldl_congr_mem
        intro mv hmv acc
        rw [hchild mv (by rw [hsplit]; exact List.mem_cons_of_mem _ hmv) .X true]
      · rw [minimaxSpec_none_max s f d hres, minimax_none_max s f d hres]
        rw [hsplit, List.map_cons, List.headD_cons, List.foldl_cons, List.foldl_cons]
        rw [List.foldl_map]
        rw [hchild e0 hmem0 .O false, max_self]
        rw [max_eq_right (by
          have := (hcbound e0 hmem0 .O false).1
          unfold NEG_INFINITY
          omega)]
        apply foldl_congr_mem
        intro mv hmv acc
        rw [hchild mv (by rw [hsplit]; exact List.mem_cons_of_mem _ hmv) .O false]

end TicTacToe

namespace TicTacToe

theorem minimaxSt_terminal (f : Nat) (s : Board) (d : Nat) (m : Bool) (r : GameResult)
    (h : resultOf s = some r) : (minimaxSt f s d m).2 = s := by
  rcases r with p | _
  · cases p
    · cases f <;> (simp only [minimaxSt]; rw [h])
    · cases f <;> (simp only [minimaxSt]; rw [h])
  · cases f <;> (simp only [minimaxSt]; rw [h])

theorem minimaxSt_none_max (s : Board) (f d : Nat) (h : resultOf s = none) :
    minimaxSt (f + 1) s d true =
      (getEmptySquares s).foldl
        (fun acc mv =>
          let res := minimaxSt f (acc.2.set mv (some .O)) (d + 1) false
          (max acc.1 res.1, res.2.set mv none))
        (NEG_INFINITY, s) := by
  simp only [minimaxSt]
  rw [h]
  simp

theorem minimaxSt_none_min (s : Board) (f d : Nat) (h : resultOf s = none) :
    minimaxSt (f + 1) s d false =
      (getEmptySquares s).foldl
        (fun acc mv =>
          let res := minimaxSt f (acc.2.set mv (some .X)) (d + 1) true
          (min acc.1 res.1, res.2.set mv none))
        (POS_INFINITY, s) := by
  simp only [minimaxSt]
  rw [h]
  simp

/-- `minimax` undoes every trial placement: the array it returns is the array
it was given. -/
theorem minimaxSt_snd (f : Nat) :
    ∀ (s : Board) (d : Nat) (m : Bool), (minimaxSt f s d m).2 = s := by
  induction f with
  | zero =>
    intro s d m
    cases hres : resultOf s with
    | some r => exact minimaxSt_terminal 0 s d m r hres
    | none => simp only [minimaxSt]; rw [hres]
  | succ f ih =>
    intro s d m
    cases hres : resultOf s with
    | some r => exact minimaxSt_terminal (f + 1) s d m r hres
    | none =>
      have key : ∀ (p : Player) (mb : Bool)
          (op : Int → Int → Int) (ms : List Nat) (acc : Int × Board),
          acc.2 = s → (∀ mv ∈ ms, s.get? mv = some none) →
          ((ms.foldl
            (fun acc mv =>
              let res := minimaxSt f (acc.2.set mv (some p)) (d + 1) mb
              (op acc.1 res.1, res.2.set mv none))
            acc).2 = s) := by
        intro p mb op ms
        induction ms with
        | nil => intro acc hacc _; exact hacc
        | cons y t iht =>
          intro acc hacc hmem
          rw [List.foldl_cons]
          apply iht
          · show ((minimaxSt f (acc.2.set y (some p)) (d + 1) mb).2.set y none) = s
            rw [ih (acc.2.set y (some p)) (d + 1) mb, List.set_set, hacc]
            exact set_get?_self (hmem y (List.mem_cons_self _ _))
          · exact fun mv hmv => hmem mv (List.mem_cons_of_mem _ hmv)
      have hmems : ∀ mv ∈ getEmptySquares s, s.get? mv = some none :=
        fun mv hmv => get?_of_mem_getEmptySquares hmv
      cases m
      · rw [minimaxSt_none_min s f d hres]
        exact key .X true min _ _ rfl hmems
      · rw [minimaxSt_none_max s f d hres]
        exact key .O false max _ _ rfl hmems

/-- `getAIMove` undoes every trial placement. -/
theorem getAIMoveSt_snd (s : Board) : (getAIMoveSt s).2 = s := by
  unfold getAIMoveSt
  have key : ∀ (ms : List Nat) (acc : Int × Nat × Board),
      acc.2.2 = s → (∀ mv ∈ ms, s.get? mv = some none) →
      ((ms.foldl
        (fun acc mv =>
          let res := minimaxSt s.length (acc.2.2.set mv (some .O)) 0 false
          let restored := res.2.set mv none
          if acc.1 < res.1 then (res.1, mv, restored) else (acc.1, acc.2.1, restored))
        acc).2.2 = s) := by
    intro ms
    induction ms with
    | nil => intro acc hacc _; exact hacc
    | cons y t iht =>
      intro acc hacc hmem
      rw [List.foldl_cons]
      have hres2 : ((minimaxSt s.length (acc.2.2.set y (some .O)) 0 false).2.set y none) = s := by
        rw [minimaxSt_snd s.length (acc.2.2.set y (some .O)) 0 false, List.set_set, hacc]
        exact set_get?_self (hmem y (List.mem_cons_self _ _))
      by_cases hlt : acc.1 < (minimaxSt s.length (acc.2.2.set y (some .O)) 0 false).1
      · rw [if_pos hlt] at *
        apply iht
        · exact hres2
        · exact fun mv hmv => hmem mv (List.mem_cons_of_mem _ hmv)
      · rw [if_neg hlt] at *
        apply iht
        · exact hres2
        · exact fun mv hmv => hmem mv (List.mem_cons_of_mem _ hmv)
  exact key (getEmptySquares s) _ rfl
    (fun mv hmv => get?_of_mem_getEmptySquares hmv)

end TicTacToe

namespace TicTacToe

/-- C2: for every non-terminal 3×3 board with at least one empty cell, the
hard-difficulty AI move is the reference exhaustive-minimax choice: it is an
empty cell whose move value (reference scoring: AI-mark win at depth `d`
scores `10 - d`, human-mark win `d - 10`, draw `0`; AI maximizes, opponent
minimizes) is maximal, and among the empty cells attaining that maximum it
has the smallest cell index. -/
theorem c2_hard_ai_matches_reference_minimax (s : Board) (hlen : s.length = 9)
    (hres : resultOf s = none) :
    getAIMove s ∈ getEmptySquares s ∧
    (∀ mv ∈ getEmptySquares s,
      minimaxSpec 9 (s.set mv (some .O)) 0 false ≤
        minimaxSpec 9 (s.set (getAIMove s) (some .O)) 0 false) ∧
    (∀ mv ∈ getEmptySquares s,
      minimaxSpec 9 (s.set mv (some .O)) 0 false =
        minimaxSpec 9 (s.set (getAIMove s) (some .O)) 0 false →
      getAIMove s ≤ mv) := by
  have h9 : s.length ≤ 9 := by omega
  obtain ⟨hmem, hmax, hfirst⟩ := getAIMove_spec s h9 hres
  have hconv : ∀ mv ∈ getEmptySquares s,
      minimaxSpec 9 (s.set mv (some .O)) 0 false =
        minimax s.length (s.set mv (some .O)) 0 false := by
    intro mv hmv
    have hlen2 := length_getEmptySquares_set hmv Player.O
    have hle := length_getEmptySquares_le s
    rw [minimaxSpec_eq_minimax 9 (s.set mv (some .O)) 0 false (by omega) (by omega), hlen]
  refine ⟨hmem, ?_, ?_⟩
  · intro mv hmv
    rw [hconv mv hmv, hconv (getAIMove s) hmem]
    exact hmax mv hmv
  · intro mv hmv hveq
    rw [hconv mv hmv, hconv (getAIMove s) hmem] at hveq
    exact hfirst mv hmv hveq

/-- C2 witness: the characterization applied to the concrete blocking board
of claim C3. -/
theorem c2_witness :
    getAIMove [some .X, some .X, none, none, some .O, none, none, none, none] ∈
      getEmptySquares [some .X, some .X, none, none, some .O, none, none, none, none] :=
  (c2_hard_ai_matches_reference_minimax
    [some .X, some .X, none, none, some .O, none, none, none, none]
    (by rfl) (by decide)).1

/-- C3: on the board `[X,X,_, _,O,_, _,_,_]` with the hard AI (mark `O`) to
move, `getAIMove` returns index 2; placing `X` there instead would have
completed row 0, so the move blocks the human's win. -/
theorem c3_hard_ai_blocks_row0 :
    getAIMove [some .X, some .X, none, none, some .O, none, none, none, none] = 2 ∧
    resultOf (([some .X, some .X, none, none, some .O, none, none, none, none] : Board).set 2
      (some .X)) = some (.win .X) := by
  decide

/-- C4 (counterexample): clicking the out-of-range index 9 on the ongoing
empty board is not rejected: the JS assignment grows the cell array to
length 10 and the turn passes to `O`. -/
theorem c4_out_of_range_click_changes_state :
    (handleClick 9 initialState).board ≠ initialState.board ∧
    (handleClick 9 initialState).board.length = 10 ∧
    (handleClick 9 initialState).currentPlayer ≠ initialState.currentPlayer := by
  decide

/-- C4 (amended): the guard of `handleClick` rejects exactly the clicks on an
occupied cell and the clicks after the game has ended; those are complete
no-ops.  Out-of-range indices pass the guard (the out-of-range read is
`undefined`, which is falsy) and are not rejected. -/
theorem c4_occupied_or_finished_click_noop (s : GameState) (i : Nat)
    (h : ((cellAt s.board i).isSome || s.winner.isSome) = true) :
    handleClick i s = s := by
  unfold handleClick
  rw [if_pos h]

/-- C4 witness: re-clicking an occupied cell is a no-op. -/
theorem c4_witness :
    handleClick 0 (handleClick 0 initialState) = handleClick 0 initialState :=
  c4_occupied_or_finished_click_noop (handleClick 0 initialState) 0 (by decide)

/-- C9: the searching functions leave the board they are given element-wise
equal to its value at entry: every trial placement made by `minimax` and by
`getAIMove` is undone before returning. -/
theorem c9_search_restores_board :
    (∀ (fuel : Nat) (squares : Board) (depth : Nat) (isMaximizing : Bool),
      (minimaxSt fuel squares depth isMaximizing).2 = squares) ∧
    (∀ squares : Board, (getAIMoveSt squares).2 = squares) :=
  ⟨fun fuel squares depth m => minimaxSt_snd fuel squares depth m,
   fun squares => getAIMoveSt_snd squares⟩

end TicTacToe

namespace Hangman

/-- Preservation of `score ≤ highScore` by a letter guess: the only branch
that changes the score also raises the high score to at least the new
score. -/
theorem guessLetter_score_le (s : HState) (c : Char) (h : s.score ≤ s.highScore) :
    (guessLetter c s).score ≤ (guessLetter c s).highScore := by
  simp only [guessLetter]
  split_ifs with h1 h2 h3 h4
  all_goals first
    | exact h
    | exact le_max_right _ _

/-- C10: `highScore ≥ score` holds initially and is preserved by every
operation of the word-guess engine. -/
theorem c10_highScore_bounds_score (s : HState) (h : Reach s) :
    s.score ≤ s.highScore := by
  induction h with
  | init => exact le_refl 0
  | guess s c _ ih => exact guessLetter_score_le s c ih
  | newGame s w _ ih => exact ih
  | statsReset s _ => exact le_refl 0

/-- C10 witness: the invariant at the initial state. -/
theorem c10_witness : initialState.score ≤ initialState.highScore :=
  c10_highScore_bounds_score initialState Reach.init

/-- C5 (counterexample): `guessLetter` has no already-guessed guard; while
playing, re-guessing the wrong letter `Z` decrements `remainingTries` from 5
to 4 instead of being a no-op. -/
theorem c5_reguess_wrong_letter_decrements :
    (⟨snakeWord, ['Z'], 5, .playing, 0, 0, 0⟩ : HState).gameStatus = .playing ∧
    'Z' ∈ (⟨snakeWord, ['Z'], 5, .playing, 0, 0, 0⟩ : HState).guessedLetters ∧
    (guessLetter 'Z' ⟨snakeWord, ['Z'], 5, .playing, 0, 0, 0⟩).remainingTries = 4 := by
  decide

/-- C5 (amended): the only guard of `guessLetter` is `status ≠ playing`.
Re-guessing a letter that occurs in the word (while the word is not yet
complete) happens to be a no-op, because adding an existing member to the
guessed set changes nothing; but re-guessing a letter that does not occur
in the word decrements `remainingTries` again (the UI merely disables
guessed buttons). -/
theorem c5_reguess_guarded_noop :
    (∀ (s : HState) (c : Char), s.gameStatus = .playing → c ∈ s.guessedLetters →
      c ∈ s.currentWord.word → (∃ ch ∈ s.currentWord.word, ch ∉ s.guessedLetters) →
      guessLetter c s = s) ∧
    (∀ (s : HState) (c : Char), s.gameStatus = .playing → c ∈ s.guessedLetters →
      c ∉ s.currentWord.word →
      (guessLetter c s).remainingTries = s.remainingTries - 1) := by
  constructor
  · intro s c h1 h2 h3 h4
    unfold guessLetter
    rw [if_neg (by simp [h1])]
    have hadd : addToSet s.guessedLetters c = s.guessedLetters := by
      unfold addToSet
      rw [if_pos h2]
    rw [hadd]
    rw [if_neg (by simp [h3])]
    obtain ⟨ch, hch, hchn⟩ := h4
    rw [if_neg (by
      intro hall
      exact hchn (by simpa using List.all_eq_true.mp hall ch hch))]
  · intro s c h1 h2 h3
    unfold guessLetter
    rw [if_neg (by simp [h1])]
    rw [if_pos h3]
    by_cases hz : s.remainingTries - 1 = 0
    · rw [if_pos hz]
    · rw [if_neg hz]

/-- C5 witness: a correct-letter re-guess is a no-op; a wrong-letter
re-guess decrements the tries. -/
theorem c5_witness :
    guessLetter 'S' ⟨snakeWord, ['S'], 6, .playing, 0, 0, 0⟩ =
      (⟨snakeWord, ['S'], 6, .playing, 0, 0, 0⟩ : HState) ∧
    (guessLetter 'Z' ⟨snakeWord, ['Z'], 5, .playing, 0, 0, 0⟩).remainingTries =
      (⟨snakeWord, ['Z'], 5, .playing, 0, 0, 0⟩ : HState).remainingTries - 1 :=
  ⟨c5_reguess_guarded_noop.1 _ 'S' (by decide) (by decide) (by decide) (by decide),
   c5_reguess_guarded_noop.2 _ 'Z' (by decide) (by decide) (by decide)⟩

/-- C6: a correct guess that completes the word sets `status = won` and
awards exactly `round(len(word) * 10 * difficultyMultiplier * remainingTries
/ MAX_TRIES)` points; in particular guessing `S,N,A,K,E` for the word
`SNAKE` on easy difficulty with no misses ends won with word score
`round(5·10·1·6/6) = 50`. -/
theorem c6_win_scoring :
    (∀ (s : HState) (c : Char), s.gameStatus = .playing → c ∈ s.currentWord.word →
      (∀ ch ∈ s.currentWord.word, ch ∈ addToSet s.guessedLetters c) →
      (guessLetter c s).gameStatus = .won ∧
      (guessLetter c s).score =
        s.score +
          calculateWordScore s.currentWord.word s.remainingTries s.currentWord.difficulty) ∧
    ((guessLetter 'E' (guessLetter 'K' (guessLetter 'A' (guessLetter 'N' (guessLetter 'S'
        (initializeGame snakeWord initialState)))))).gameStatus = .won ∧
     (guessLetter 'E' (guessLetter 'K' (guessLetter 'A' (guessLetter 'N' (guessLetter 'S'
        (initializeGame snakeWord initialState)))))).score = 50 ∧
     calculateWordScore snakeWord.word 6 .easy = 50) := by
  constructor
  · intro s c h1 h2 h3
    unfold guessLetter
    rw [if_neg (by simp [h1])]
    rw [if_neg (by simp [h2])]
    rw [if_pos (List.all_eq_true.mpr (fun ch hch => by simpa using h3 ch hch))]
    exact ⟨rfl, rfl⟩
  · have h50 : calculateWordScore snakeWord.word 6 .easy = 50 := by
      have hlen : snakeWord.word.length = 5 := by decide
      unfold calculateWordScore difficultyMultiplier
      rw [hlen]
      rw [show ((5 : Nat) : ℚ) * 10 * 1 * (((6 : Int) : ℚ) / ((MAX_TRIES : Nat) : ℚ)) =
        ((50 : ℤ) : ℚ) by unfold MAX_TRIES; norm_num]
      exact round_intCast 50
    have hs4 : guessLetter 'K' (guessLetter 'A' (guessLetter 'N' (guessLetter 'S'
        (initializeGame snakeWord initialState)))) =
        ⟨snakeWord, ['S', 'N', 'A', 'K'], 6, .playing, 0, 0, 0⟩ := by decide
    refine ⟨by decide, ?_, h50⟩
    rw [hs4]
    simp only [guessLetter]
    rw [if_neg (by decide), if_neg (by decide), if_pos (by decide)]
    simp only [zero_add]
    rw [show snakeWord.difficulty = Difficulty.easy from rfl]
    exact h50

end Hangman

namespace Snake

theorem position_ext {p q : Position} (hx : p.x = q.x) (hy : p.y = q.y) : p = q := by
  cases p
  cases q
  simp_all

theorem jsMod_bounds (a : Int) (ha : 0 ≤ a) : 0 ≤ jsMod a GRID_SIZE ∧ jsMod a GRID_SIZE < GRID_SIZE := by
  unfold jsMod GRID_SIZE
  exact ⟨Int.tmod_nonneg 20 ha, Int.tmod_lt_of_pos a (by norm_num)⟩

/-- C7 (counterexample): the claim's growth clause overlooks the unguarded
food respawn: with the food lying on a body segment, a tick whose new head
coincides with the food is a self-collision, ends the game, and does not
grow the snake. -/
theorem c7_food_on_body_tick_no_growth :
    newHeadOf ⟨[⟨0, 0⟩, ⟨1, 0⟩], ⟨1, 0⟩, ⟨1, 0⟩, false, 0, false⟩ =
      (⟨[⟨0, 0⟩, ⟨1, 0⟩], ⟨1, 0⟩, ⟨1, 0⟩, false, 0, false⟩ : SnakeState).food ∧
    (moveSnake ⟨5, 5⟩ ⟨[⟨0, 0⟩, ⟨1, 0⟩], ⟨1, 0⟩, ⟨1, 0⟩, false, 0, false⟩).snake.length =
      (⟨[⟨0, 0⟩, ⟨1, 0⟩], ⟨1, 0⟩, ⟨1, 0⟩, false, 0, false⟩ : SnakeState).snake.length ∧
    (moveSnake ⟨5, 5⟩ ⟨[⟨0, 0⟩, ⟨1, 0⟩], ⟨1, 0⟩, ⟨1, 0⟩, false, 0, false⟩).gameOver = true := by
  decide

/-- C7 (amended): for a playing, unpaused state with a nonempty snake, a
valid arrow direction and an in-grid head: a tick whose new head is not the
food keeps the segment count (a self-collision tick keeps the whole snake
and ends the game); a tick whose new head is the food and no existing
segment grows the count by one; and after every tick the snake is nonempty
with its head inside the toroidal grid. -/
theorem c7_tick_segments_and_bounds (s : SnakeState) (nf : Position)
    (hgo : s.gameOver = false) (hpa : s.isPaused = false) (hne : s.snake ≠ [])
    (hdir : s.direction ∈ arrowDirections) (hhead : inGrid (s.snake.headD ⟨0, 0⟩)) :
    (¬(newHeadOf s = s.food) → (moveSnake nf s).snake.length = s.snake.length) ∧
    ((newHeadOf s = s.food ∧ ∀ seg ∈ s.snake, seg ≠ newHeadOf s) →
      (moveSnake nf s).snake.length = s.snake.length + 1) ∧
    (moveSnake nf s).snake ≠ [] ∧
    inGrid ((moveSnake nf s).snake.headD ⟨0, 0⟩) := by
  obtain ⟨h0, rest, hsplit⟩ : ∃ h0 rest, s.snake = h0 :: rest := by
    rcases hs : s.snake with _ | ⟨h0, rest⟩
    · exact absurd hs hne
    · exact ⟨h0, rest, rfl⟩
  have hgrid : inGrid (newHeadOf s) := by
    unfold newHeadOf
    rw [hsplit]
    have hh0 : inGrid h0 := by rw [hsplit] at hhead; exact hhead
    obtain ⟨hx0, hx1, hy0, hy1⟩ := hh0
    have hdx : s.direction.x = 0 ∧ (s.direction.y = -1 ∨ s.direction.y = 1) ∨
        s.direction.y = 0 ∧ (s.direction.x = -1 ∨ s.direction.x = 1) := by
      simp only [arrowDirections, List.mem_cons, List.not_mem_nil, or_false] at hdir
      rcases hdir with h | h | h | h <;> rw [h] <;> simp
    unfold GRID_SIZE at hx1 hy1
    have hxb := jsMod_bounds (h0.x + s.direction.x + GRID_SIZE) (by unfold GRID_SIZE; omega)
    have hyb := jsMod_bounds (h0.y + s.direction.y + GRID_SIZE) (by unfold GRID_SIZE; omega)
    exact ⟨hxb.1, hxb.2, hyb.1, hyb.2⟩
  unfold moveSnake
  rw [hgo, hpa]
  simp only [Bool.or_self, Bool.false_eq_true, if_neg (by simp : ¬(false || false) = true)]
  by_cases hcol : s.snake.any
      (fun seg => decide (seg.x = (newHeadOf s).x ∧ seg.y = (newHeadOf s).y)) = true
  · rw [if_pos hcol]
    refine ⟨fun _ => rfl, ?_, ?_, ?_⟩
    · rintro ⟨hfood, hnocol⟩
      exfalso
      obtain ⟨seg, hseg, hseq⟩ := List.any_eq_true.mp hcol
      obtain ⟨hx, hy⟩ := of_decide_eq_true hseq
      exact hnocol seg hseg (position_ext hx hy)
    · rw [hsplit]; simp
    · rw [hsplit]; rw [hsplit] at hhead; exact hhead
  · rw [if_neg hcol]
    by_cases hfood : (newHeadOf s).x = s.food.x ∧ (newHeadOf s).y = s.food.y
    · rw [if_pos hfood]
      refine ⟨fun hnf => ?_, fun _ => by simp, ?_, ?_⟩
      · exact absurd (position_ext hfood.1 hfood.2) hnf
      · exact List.cons_ne_nil _ _
      · exact hgrid
    · rw [if_neg hfood]
      refine ⟨fun _ => ?_, ?_, ?_, ?_⟩
      · rw [hsplit]
        rw [List.dropLast_cons_of_ne_nil (by simp)]
        simp [List.length_dropLast]
      · rintro ⟨hfd, _⟩
        exfalso
        apply hfood
        rw [hfd]
        exact ⟨rfl, rfl⟩
      · rw [hsplit, List.dropLast_cons_of_ne_nil (by simp)]
        exact List.cons_ne_nil _ _
      · rw [hsplit, List.dropLast_cons_of_ne_nil (by simp)]
        exact hgrid

/-- C7 witness: the amended statement at a concrete ordinary tick. -/
theorem c7_witness :
    inGrid ((moveSnake ⟨3, 3⟩ ⟨[⟨10, 10⟩], ⟨1, 0⟩, ⟨15, 15⟩, false, 0, false⟩).snake.headD
      ⟨0, 0⟩) :=
  (c7_tick_segments_and_bounds ⟨[⟨10, 10⟩], ⟨1, 0⟩, ⟨15, 15⟩, false, 0, false⟩ ⟨3, 3⟩
    rfl rfl (by decide) (by decide) (by decide)).2.2.2

end Snake

namespace Pacman

theorem moveGhost_no_wall (r : Nat) (g : Position) (h : isWall g = false) :
    isWall (moveGhost r g) = false := by
  show isWall
      (match (([⟨g.x + 1, g.y⟩, ⟨g.x - 1, g.y⟩, ⟨g.x, g.y + 1⟩,
          ⟨g.x, g.y - 1⟩] : List Position).filter (fun pos => !isWall pos)).get?
          (r % (([⟨g.x + 1, g.y⟩, ⟨g.x - 1, g.y⟩, ⟨g.x, g.y + 1⟩,
          ⟨g.x, g.y - 1⟩] : List Position).filter (fun pos => !isWall pos)).length) with
        | some mv => mv
        | none => g) = false
  split
  next mv hmv =>
    have hmem := List.get?_mem hmv
    have := (List.mem_filter.mp hmem).2
    simpa using this
  next => exact h

theorem moveGhosts_no_wall (rs : List Nat) (gs : List Position)
    (h : ∀ g ∈ gs, isWall g = false) :
    ∀ g' ∈ moveGhosts rs gs, isWall g' = false := by
  induction gs generalizing rs with
  | nil => intro g' hg'; simp [moveGhosts] at hg'
  | cons g gs ih =>
    intro g' hg'
    rw [show moveGhosts rs (g :: gs) =
      moveGhost (rs.headD 0) g :: moveGhosts rs.tail gs from rfl] at hg'
    rcases List.mem_cons.mp hg' with rfl | hg'
    · exact moveGhost_no_wall _ g (h g (List.mem_cons_self _ _))
    · exact ih rs.tail (fun x hx => h x (List.mem_cons_of_mem _ hx)) g' hg'

/-- C8: the player and every adversary stay off the wall set: true in the
initial state and preserved by every tick (under all random draws),
direction command and reset. -/
theorem c8_walls_never_occupied (s : PacState) (h : Reach s) :
    isWall s.pacman = false ∧ ∀ g ∈ s.ghosts, isWall g = false := by
  induction h with
  | init => exact ⟨by decide, by decide⟩
  | tick s rs _ ih =>
    obtain ⟨hp, hg⟩ := ih
    constructor
    · show isWall (if isWall (movedPacman s.direction s.pacman) then s.pacman
        else movedPacman s.direction s.pacman) = false
      rcases hw : isWall (movedPacman s.direction s.pacman)
      · simpa using hw
      · simpa using hp
    · exact moveGhosts_no_wall rs s.ghosts hg
  | setDir s d _ ih => exact ih
  | reset s _ _ => exact ⟨by decide, by decide⟩

/-- C8 witness: the invariant at the initial state. -/
theorem c8_witness :
    isWall initialState.pacman = false ∧ ∀ g ∈ initialState.ghosts, isWall g = false :=
  c8_walls_never_occupied initialState Reach.init

end Pacman

namespace TicTacToe

/-- The exhaustive check that `stratO` never loses: every `X` playout from
the empty board (with `O` following the strategy) ends in a draw or an `O`
win. -/
theorem drawCheck_empty : drawCheck 9 emptyBoard false = true := by decide

/-- Invariant of hard-difficulty AI-mode play: the board keeps its 9 cells
and its minimax value for the side to move never becomes favourable to
`X`. -/
theorem hardReach_inv (b : Board) (p : Player) (h : HardReach b p) :
    b.length = 9 ∧ 0 ≤ minimax 9 b 0 (aiTurn p) := by
  induction h with
  | init =>
    refine ⟨by decide, ?_⟩
    have h9 : emptyBoard.length = 9 := by decide
    have := drawCheck_sound 9 emptyBoard false (by decide) (by decide) drawCheck_empty
    rw [h9] at this
    exact this
  | humanMove b i _ hres hi hcell ih =>
    obtain ⟨hlen, hval⟩ := ih
    refine ⟨by rw [List.length_set]; exact hlen, ?_⟩
    rw [show (9 : Nat) = 8 + 1 from rfl, show aiTurn Player.X = false from rfl] at hval
    rw [minimax_none_min b 8 0 hres] at hval
    obtain ⟨-, hall⟩ := (foldl_min_nonneg_iff _ _ _).mp hval
    have hmem : i ∈ getEmptySquares b := mem_getEmptySquares.mpr ⟨by omega, hcell⟩
    have hv8 := hall i hmem
    have hle := length_getEmptySquares_le b
    have hdec := length_getEmptySquares_set hmem Player.X
    exact (minimax_nonneg_congr 8 9 (b.set i (some .X)) 1 0 true
      (by omega) (by omega) (by omega) (by omega)).mp hv8
  | aiMove b _ hres ih =>
    obtain ⟨hlen, hval⟩ := ih
    refine ⟨by rw [List.length_set]; exact hlen, ?_⟩
    rw [show (9 : Nat) = 8 + 1 from rfl, show aiTurn Player.O = true from rfl] at hval
    rw [minimax_none_max b 8 0 hres] at hval
    rcases (foldl_max_nonneg_iff _ _ _).mp hval with hneg | ⟨mv, hmv, hv8⟩
    · exact absurd hneg (by unfold NEG_INFINITY; omega)
    · have hle := length_getEmptySquares_le b
      have hdec := length_getEmptySquares_set hmv Player.O
      have hv9 : 0 ≤ minimax 9 (b.set mv (some .O)) 0 false :=
        (minimax_nonneg_congr 8 9 (b.set mv (some .O)) 1 0 false
          (by omega) (by omega) (by omega) (by omega)).mp hv8
      obtain ⟨hmemc, hmax, -⟩ := getAIMove_spec b (by omega) hres
      have := hmax mv hmv
      rw [hlen] at this
      exact le_trans hv9 this

/-- C1: on hard difficulty in AI mode, whatever empty cells the human (`X`)
clicks from the empty board, with every non-terminal `O` position answered
by `getAIMove`, no reachable position is an `X` win: every finished game is
a draw or an `O` (AI) win. -/
theorem c1_hard_ai_never_loses (b : Board) (p : Player) (h : HardReach b p) :
    resultOf b ≠ some (.win .X) := by
  intro hx
  obtain ⟨-, hval⟩ := hardReach_inv b p h
  rw [minimax_terminal 9 b 0 (aiTurn p) (.win .X) hx] at hval
  norm_num at hval

/-- C1 witness: the statement at the initial (empty) board. -/
theorem c1_witness : resultOf emptyBoard ≠ some (.win .X) :=
  c1_hard_ai_never_loses emptyBoard .X HardReach.init

end TicTacToe

namespace Hangman

/-- C6 witness: the general win-scoring statement applied to the state in
which `E` completes `SNAKE`. -/
theorem c6_witness :
    (guessLetter 'E' ⟨snakeWord, ['S', 'N', 'A', 'K'], 6, .playing, 0, 0, 0⟩).gameStatus =
        .won ∧
    (guessLetter 'E' ⟨snakeWord, ['S', 'N', 'A', 'K'], 6, .playing, 0, 0, 0⟩).score =
      (0 : Int) + calculateWordScore snakeWord.word 6 snakeWord.difficulty :=
  c6_win_scoring.1 ⟨snakeWord, ['S', 'N', 'A', 'K'], 6, .playing, 0, 0, 0⟩ 'E'
    (by decide) (by decide) (by decide)

end Hangman
